import Mathlib

/-!
Verification of `cirq/study/resolver.py` (`ParamResolver`).

The resolver's own code is embedded faithfully from the source.  The external
symbolic-algebra engine (sympy) is out of scope of the repository and is
modelled from the spec's consumed-capability contract (spec section 6):
symbolic expressions form a tree of symbols, complex-rational constants, sums
and products; `substitute` applies the whole binding table to every free
variable in one pass, auto-evaluating constant subtrees the way sympy does;
floating point is abstracted by the rational numbers.
-/

/-- Model of the Python numeric values stored in a resolver table.  `int`,
`float` and `complex` are distinct runtime types even when numerically
equal; floats and the components of complex numbers are abstracted by
rationals. -/
inductive PyNum where
  | int (n : ℤ)
  | float (q : ℚ)
  | complex (re im : ℚ)
deriving DecidableEq

/-- Symbolic expressions of the external algebra engine: named symbols,
complex-rational constants, sums and products. -/
inductive Expr where
  | sym (name : String)
  | num (re im : ℚ)
  | add (a b : Expr)
  | mul (a b : Expr)
deriving DecidableEq

/-- A parameter key of the binding table: either a name string or a symbolic
variable (`sympy.Symbol`).  In a Python dict the string `"x"` and the symbol
`Symbol("x")` are distinct keys. -/
inductive PKey where
  | str (s : String)
  | sym (s : String)
deriving DecidableEq

/-- A value bound in the table (and also a possible input to `value_of`):
a plain number, a name string, or a symbolic expression. -/
inductive PyVal where
  | num (n : PyNum)
  | str (s : String)
  | expr (e : Expr)
deriving DecidableEq

/-- The binding table `param_dict`, as its ordered list of key/value items;
a Python dict never holds two equal keys. -/
abbrev ParamDict := List (PKey × PyVal)

/-- Canonical name of a key: `Symbol("x")` and `"x"` both have name `"x"`. -/
def keyName : PKey → String
  | .str s => s
  | .sym s => s

/-- Names of the keys of a table, in order. -/
def keyNames (pd : ParamDict) : List String :=
  pd.map fun kv => keyName kv.1

/-- The keys of a Python dict are pairwise distinct. -/
def keysNodup (pd : ParamDict) : Prop :=
  (pd.map fun kv => kv.1).Nodup

/-- Dict lookup: value of the first (hence, under `keysNodup`, unique) item
whose key equals `k`. -/
def lookupK (pd : ParamDict) (k : PKey) : Option PyVal :=
  (pd.find? fun kv => decide (kv.1 = k)).map fun kv => kv.2

/-- Lines 100-105 of `value_of`: for a symbol input, `key` is set to the
symbol if the symbol is a dict key, and then overwritten by the name string
if the string is also a dict key; the value finally fetched is therefore the
string binding when present, otherwise the symbol binding. -/
def chosenVal (pd : ParamDict) (s : String) : Option PyVal :=
  match lookupK pd (.str s) with
  | some v => some v
  | none => lookupK pd (.sym s)

/-- Lines 106-109 of `value_of`: the exact-match shortcut returns the bound
value iff the input is a symbol whose chosen binding is neither a string nor
a symbolic expression, i.e. a plain number. -/
def shortcutNumVal (pd : ParamDict) : Expr → Option PyNum
  | .sym s =>
    match chosenVal pd s with
    | some (.num n) => some n
    | _ => none
  | _ => none

/-- Conversion of a stored Python number to the algebra engine's constant
(sympify): ints and floats become real constants, complex numbers keep their
imaginary part. -/
def pyNumToExpr : PyNum → Expr
  | .int n => .num (n : ℚ) 0
  | .float q => .num q 0
  | .complex a b => .num a b

/-- Sympification of a dict value when the table is handed to `subs`:
numbers become constants and strings become symbols. -/
def valToExpr : PyVal → Expr
  | .num n => pyNumToExpr n
  | .str s => .sym s
  | .expr e => e

/-- The substitution pairs obtained from the whole table when `value.subs
(self.param_dict)` is called: every key is sympified to its name and every
value to an expression. -/
def substPairs (pd : ParamDict) : List (String × Expr) :=
  pd.map fun kv => (keyName kv.1, valToExpr kv.2)

/-- First expression bound to name `n` among the substitution pairs. -/
def lookupName (ps : List (String × Expr)) (n : String) : Option Expr :=
  (ps.find? fun p => decide (p.1 = n)).map fun p => p.2

/-- Auto-evaluating sum: sympy folds a sum of two constants on construction. -/
def mkAdd : Expr → Expr → Expr
  | .num a b, .num c d => .num (a + c) (b + d)
  | a, b => .add a b

/-- Auto-evaluating product: sympy folds a product of two constants on
construction, with complex multiplication. -/
def mkMul : Expr → Expr → Expr
  | .num a b, .num c d => .num (a * c - b * d) (a * d + b * c)
  | a, b => .mul a b

/-- The algebra engine's `substitute` (spec section 6), as invoked on line 116
by `value.subs(self.param_dict)`: every symbol bound in the pairs is replaced
by its bound expression, in one simultaneous pass, recombining with the
auto-evaluating constructors. -/
def Expr.subs (ps : List (String × Expr)) : Expr → Expr
  | .sym n =>
    match lookupName ps n with
    | some e => e
    | none => .sym n
  | .num a b => .num a b
  | .add a b => mkAdd (a.subs ps) (b.subs ps)
  | .mul a b => mkMul (a.subs ps) (b.subs ps)

/-- The free symbols of an expression (`v.free_symbols`), with multiplicity. -/
def Expr.freeSyms : Expr → List String
  | .sym n => [n]
  | .num _ _ => []
  | .add a b => a.freeSyms ++ b.freeSyms
  | .mul a b => a.freeSyms ++ b.freeSyms

/-- Truthiness of `v.free_symbols`: does the expression have a free symbol? -/
def hasFree (e : Expr) : Bool :=
  !e.freeSyms.isEmpty

/-- Real part of a closed expression (`float(v)` reads this). -/
def evalC : Expr → ℚ × ℚ
  | .sym _ => (0, 0)
  | .num a b => (a, b)
  | .add a b => ((evalC a).1 + (evalC b).1, (evalC a).2 + (evalC b).2)
  | .mul a b => ((evalC a).1 * (evalC b).1 - (evalC a).2 * (evalC b).2,
                 (evalC a).1 * (evalC b).2 + (evalC a).2 * (evalC b).1)

/-- Real part of the numeric value of a closed expression. -/
def evalRe (e : Expr) : ℚ := (evalC e).1

/-- Imaginary part of the numeric value of a closed expression
(`sympy.im(v)`). -/
def evalIm (e : Expr) : ℚ := (evalC e).2

/-- The result of `value_of`: either a Python number (int, float or complex)
or an unresolved symbolic expression. -/
inductive Resolved where
  | num (n : PyNum)
  | expr (e : Expr)
deriving DecidableEq

/-- Lines 123-125 of `value_of`: a fully substituted value with no free
symbols is returned as `complex(v)` when `sympy.im(v)` is non-zero and as
`float(v)` otherwise. -/
def numResult (v : Expr) : Resolved :=
  if evalIm v = 0 then .num (.float (evalRe v)) else .num (.complex (evalRe v) (evalIm v))

/-- Lines 115-125 of `value_of`: the substitution loop.  One step computes
`v = value.subs(param_dict)`; if `v` has free symbols and differs from
`value` the loop continues on `v`; if it has free symbols and equals `value`
the loop returns `v` unchanged; if it has no free symbols the loop returns
the classified number.  The loop is a relation because the source bounds it
by no counter and it need not terminate. -/
inductive LoopEval (ps : List (String × Expr)) : Expr → Resolved → Prop where
  | concrete (e : Expr) (h : hasFree (Expr.subs ps e) = false) :
      LoopEval ps e (numResult (Expr.subs ps e))
  | fixpt (e : Expr) (hf : hasFree (Expr.subs ps e) = true)
      (he : Expr.subs ps e = e) : LoopEval ps e (.expr e)
  | step (e : Expr) (r : Resolved) (hf : hasFree (Expr.subs ps e) = true)
      (he : Expr.subs ps e ≠ e) (ht : LoopEval ps (Expr.subs ps e) r) :
      LoopEval ps e r

/-- `ParamResolver.value_of` (lines 66-128) as a big-step relation on a
table.  A plain number passes through unchanged; a string is normalized to
the symbol of that name and resolved like the symbol; a symbolic input is
returned by the exact-match shortcut when it applies and otherwise handed to
the substitution loop. -/
inductive ValueOf (pd : ParamDict) : PyVal → Resolved → Prop where
  | numPass (n : PyNum) : ValueOf pd (.num n) (.num n)
  | short (e : Expr) (n : PyNum) (h : shortcutNumVal pd e = some n) :
      ValueOf pd (.expr e) (.num n)
  | loop (e : Expr) (r : Resolved) (h : shortcutNumVal pd e = none)
      (hl : LoopEval (substPairs pd) e r) : ValueOf pd (.expr e) r
  | strI (s : String) (r : Resolved) (h : ValueOf pd (.expr (.sym s)) r) :
      ValueOf pd (.str s) r

/-- The resolver: a wrapper around its `param_dict`. -/
structure ParamResolver where
  param_dict : ParamDict
deriving DecidableEq

/-- `value_of` of a resolver. -/
def ParamResolver.value_of (r : ParamResolver) : PyVal → Resolved → Prop :=
  ValueOf r.param_dict

/-- Line 133: `bool(self.param_dict)` — truthiness of the table. -/
def ParamResolver.toBool (r : ParamResolver) : Bool :=
  !r.param_dict.isEmpty

/-- Line 130: iteration over the resolver yields the dict's keys in order. -/
def ParamResolver.iterKeys (r : ParamResolver) : List PKey :=
  r.param_dict.map fun kv => kv.1

/-- Numeric value of a Python number as a complex rational: Python `==`
compares numbers of different runtime types by value (`2 == 2.0` and
`complex(2, 0) == 2` are both true). -/
def numericVal : PyNum → ℚ × ℚ
  | .int n => ((n : ℚ), 0)
  | .float q => (q, 0)
  | .complex a b => (a, b)

/-- Python equality on stored table values, as dict `==` invokes it:
numbers of any runtime type are equal iff numerically equal; a number
equals a constant expression of the same numeric value (sympy sympifies
the number before comparing); a name string equals the symbol of that name
(sympy sympifies the string; strings model alias names here); two
expressions compare by sympy's structural equality on auto-evaluated
forms; every other combination is unequal. -/
def pyValEq : PyVal → PyVal → Bool
  | .num a, .num b => decide (numericVal a = numericVal b)
  | .num a, .expr (.num re im) => decide (numericVal a = (re, im))
  | .expr (.num re im), .num a => decide ((re, im) = numericVal a)
  | .str s, .str t => decide (s = t)
  | .str s, .expr e => decide (e = .sym s)
  | .expr e, .str s => decide (e = .sym s)
  | .expr a, .expr b => decide (a = b)
  | _, _ => false

/-- One side of Python dict equality at one key: the other table binds the
key, to a value equal under Python `==`. -/
def valuesMatch (b : ParamDict) (k : PKey) (v : PyVal) : Bool :=
  match lookupK b k with
  | some w => pyValEq v w
  | none => false

/-- Python dict equality: the tables bind the same keys to values equal
under Python `==`, insertion order irrelevant. -/
def dictEqb (a b : ParamDict) : Bool :=
  (a.all fun kv => valuesMatch b kv.1 kv.2) &&
  (b.all fun kv => valuesMatch a kv.1 kv.2)

/-- Lines 145-148: two resolvers are equal iff their `param_dict`s are. -/
def ParamResolver.eqb (r₁ r₂ : ParamResolver) : Bool :=
  dictEqb r₁.param_dict r₂.param_dict

/-- Lines 140-143: the hash is `hash(frozenset(self.param_dict.items()))`;
it is modelled by the finite set of items, of which Python's integer hash is
a deterministic function. -/
def ParamResolver.hashv (r : ParamResolver) : Finset (PKey × PyVal) :=
  r.param_dict.toFinset

/-- Lines 160-165, `_json_dict_`: the encoded record is the `cirq_type` tag
together with the table's items as an ordered list of pairs. -/
def jsonDict (r : ParamResolver) : String × List (PKey × PyVal) :=
  ("ParamResolver", r.param_dict)

/-- Inserting one pair into a dict-as-list: an existing equal key has its
value updated in place, a new key is appended. -/
def insertPair : ParamDict → PKey × PyVal → ParamDict
  | [], p => [p]
  | q :: rest, p => if q.1 = p.1 then (q.1, p.2) :: rest else q :: insertPair rest p

/-- Python's `dict(pairs)`: pairs inserted left to right. -/
def dictOfList (l : List (PKey × PyVal)) : ParamDict :=
  l.foldl insertPair []

/-- Lines 167-169, `_from_json_dict_`: rebuild the table with `dict(...)`
from the list of pairs and construct a resolver over it. -/
def fromJsonDict (l : List (PKey × PyVal)) : ParamResolver :=
  ⟨dictOfList l⟩

/-- A resolver object with an identity: `oid` models the Python object
identity (`id`), distinct for every separately allocated object. -/
structure ResolverObj where
  oid : ℕ
  val : ParamResolver
deriving DecidableEq

/-- The argument type of the constructor: an existing resolver object, a raw
table, or `None`. -/
inductive ParamResolverOrSimilarType where
  | resolver (r : ResolverObj)
  | dict (d : ParamDict)
  | noneV
deriving DecidableEq

/-- Lines 52-64, `__new__` plus `__init__`: constructing from an existing
resolver returns that very object (and `__init__` leaves it untouched);
constructing from a raw table or from `None` allocates a fresh object
(`fresh` is its new, unused identity) over that table or an empty one. -/
def mkResolver (fresh : ℕ) : ParamResolverOrSimilarType → ResolverObj
  | .resolver r => r
  | .dict d => ⟨fresh, ⟨d⟩⟩
  | .noneV => ⟨fresh, ⟨[]⟩⟩

/-- Table binding `x` directly to the int `5` while `x` also occurs inside an
unrelated unresolvable expression bound to `z`. -/
def pdC1 : ParamDict := [(.str "x", .num (.int 5)), (.str "z", .expr (.add (.sym "x") (.sym "w")))]

/-- Table binding the symbol `x` to `5` and the string `"x"` to `7`. -/
def pdC2 : ParamDict := [(.sym "x", .num (.int 5)), (.str "x", .num (.int 7))]

/-- Self-referential table: `x` is bound to the symbol `x` itself, so
substitution makes no progress. -/
def pdC3 : ParamDict := [(.str "x", .expr (.sym "x"))]

/-- Chained table: `x` is bound to the alias string `"y"` and `y` to `3`. -/
def pdC4 : ParamDict := [(.str "x", .str "y"), (.str "y", .num (.int 3))]

/-- Substitution pairs binding `x` to the imaginary unit. -/
def psC5 : List (String × Expr) := [("x", Expr.num 0 1)]

/-- Table binding `x` to the Python int `5` (shortcut path). -/
def pdC10a : ParamDict := [(.str "x", .num (.int 5))]

/-- Table binding `x` to the algebra-engine constant `5` (loop path). -/
def pdC10b : ParamDict := [(.str "x", .expr (.num 5 0))]

/-- A resolver holding a primitive and a symbolic-expression value. -/
def rC9 : ParamResolver :=
  ⟨[(.str "x", .num (.float 1)), (.sym "y", .expr (.add (.sym "z") (.num 2 0)))]⟩

lemma lookupK_mem {pd : ParamDict} {k : PKey} {v : PyVal}
    (h : lookupK pd k = some v) : (k, v) ∈ pd := by
  unfold lookupK at h
  rcases Option.map_eq_some'.mp h with ⟨kv, hfind, hv⟩
  have hk' := List.find?_some hfind
  have hk : kv.1 = k := of_decide_eq_true hk'
  have hmem := List.mem_of_find?_eq_some hfind
  have : kv = (k, v) := by
    cases kv
    simp_all
  rwa [this] at hmem

lemma mem_keyNames_of_lookupK {pd : ParamDict} {k : PKey} {v : PyVal}
    (h : lookupK pd k = some v) : keyName k ∈ keyNames pd := by
  have hmem := lookupK_mem h
  exact List.mem_map.mpr ⟨(k, v), hmem, rfl⟩

lemma chosenVal_eq_none {pd : ParamDict} {s : String} (h : s ∉ keyNames pd) :
    chosenVal pd s = none := by
  unfold chosenVal
  cases hstr : lookupK pd (.str s) with
  | some v => exact absurd (mem_keyNames_of_lookupK hstr) h
  | none =>
    cases hsym : lookupK pd (.sym s) with
    | some v => exact absurd (mem_keyNames_of_lookupK hsym) h
    | none => rfl

lemma lookupName_eq_none {pd : ParamDict} {s : String} (h : s ∉ keyNames pd) :
    lookupName (substPairs pd) s = none := by
  unfold lookupName
  rw [Option.map_eq_none', List.find?_eq_none]
  intro p hp
  rcases List.mem_map.mp hp with ⟨kv, hkv, hpkv⟩
  intro hdec
  have hps : p.1 = s := of_decide_eq_true hdec
  exact h (by
    rw [← hps, ← hpkv]
    exact List.mem_map.mpr ⟨kv, hkv, rfl⟩)

lemma subs_sym_unbound {pd : ParamDict} {s : String} (h : s ∉ keyNames pd) :
    Expr.subs (substPairs pd) (.sym s) = .sym s := by
  unfold Expr.subs
  rw [lookupName_eq_none h]

lemma shortcutNumVal_eq_none_of {pd : ParamDict} {s : String}
    (h : chosenVal pd s = none) : shortcutNumVal pd (.sym s) = none := by
  simp [shortcutNumVal, h]

lemma hasFree_sym (s : String) : hasFree (.sym s) = true := by
  simp [hasFree, Expr.freeSyms]

lemma valueOf_unbound_sym {pd : ParamDict} {s : String} (h : s ∉ keyNames pd) :
    ValueOf pd (.expr (.sym s)) (.expr (.sym s)) := by
  have hsub := subs_sym_unbound h
  refine ValueOf.loop _ _ (shortcutNumVal_eq_none_of (chosenVal_eq_none h)) ?_
  exact LoopEval.fixpt _ (by rw [hsub]; exact hasFree_sym s) hsub

lemma numResult_eq_num (v : Expr) : ∃ n, numResult v = .num n := by
  unfold numResult
  split
  · exact ⟨_, rfl⟩
  · exact ⟨_, rfl⟩

lemma loopEval_expr_inv {ps : List (String × Expr)} {e : Expr} {r : Resolved}
    (h : LoopEval ps e r) :
    ∀ e₂, r = .expr e₂ → hasFree e₂ = true ∧ Expr.subs ps e₂ = e₂ := by
  induction h with
  | concrete e hc =>
    intro e₂ hr
    rcases numResult_eq_num (Expr.subs ps e) with ⟨n, hn⟩
    rw [hn] at hr
    cases hr
  | fixpt e hf he =>
    intro e₂ hr
    cases hr
    exact ⟨by rwa [he] at hf, he⟩
  | step e r hf he ht ih =>
    exact ih

lemma loopEval_num_inv {ps : List (String × Expr)} {e : Expr} {r : Resolved}
    (h : LoopEval ps e r) :
    ∀ n, r = .num n → ∃ v, hasFree v = false ∧
      n = if evalIm v = 0 then PyNum.float (evalRe v)
          else PyNum.complex (evalRe v) (evalIm v) := by
  induction h with
  | concrete e hc =>
    intro n hr
    refine ⟨Expr.subs ps e, hc, ?_⟩
    unfold numResult at hr
    split at hr <;> rename_i h0 <;> cases hr
    · rw [if_pos h0]
    · rw [if_neg h0]
  | fixpt e hf he =>
    intro n hr
    cases hr
  | step e r hf he ht ih =>
    exact ih

lemma lookupK_of_mem_nodup {pd : ParamDict} {kv : PKey × PyVal}
    (hnd : keysNodup pd) (hmem : kv ∈ pd) : lookupK pd kv.1 = some kv.2 := by
  induction pd with
  | nil => cases hmem
  | cons a rest ih =>
    unfold keysNodup at hnd
    rw [List.map_cons, List.nodup_cons] at hnd
    rcases List.mem_cons.mp hmem with h | h
    · subst h
      have hpos : (fun q : PKey × PyVal => decide (q.1 = kv.1)) kv = true := by simp
      have hfind : List.find? (fun q : PKey × PyVal => decide (q.1 = kv.1)) (kv :: rest) =
          some kv := List.find?_cons_of_pos _ hpos
      unfold lookupK
      rw [hfind]
      rfl
    · by_cases hk : a.1 = kv.1
      · exact absurd (hk ▸ List.mem_map.mpr ⟨kv, h, rfl⟩) hnd.1
      · unfold lookupK
        rw [List.find?_cons_of_neg _ (by simpa using hk)]
        exact ih hnd.2 h

lemma keysNodup_of_perm {a b : ParamDict} (hperm : a.Perm b)
    (hnd : keysNodup a) : keysNodup b := by
  unfold keysNodup at hnd ⊢
  exact (hperm.map fun kv => kv.1).nodup_iff.mp hnd

lemma pyValEq_refl (v : PyVal) : pyValEq v v = true := by
  cases v with
  | num n => simp [pyValEq]
  | str s => simp [pyValEq]
  | expr e => cases e <;> simp [pyValEq]

lemma valuesMatch_of_mem_nodup {pd : ParamDict} {kv : PKey × PyVal}
    (hnd : keysNodup pd) (hmem : kv ∈ pd) : valuesMatch pd kv.1 kv.2 = true := by
  unfold valuesMatch
  rw [lookupK_of_mem_nodup hnd hmem]
  exact pyValEq_refl kv.2

lemma dictEqb_of_perm {a b : ParamDict} (hperm : a.Perm b)
    (hnd : keysNodup a) : dictEqb a b = true := by
  have hndb : keysNodup b := keysNodup_of_perm hperm hnd
  unfold dictEqb
  rw [Bool.and_eq_true, List.all_eq_true, List.all_eq_true]
  constructor
  · intro kv hkv
    exact valuesMatch_of_mem_nodup hndb (hperm.mem_iff.mp hkv)
  · intro kv hkv
    exact valuesMatch_of_mem_nodup hnd (hperm.mem_iff.mpr hkv)

lemma dictEqb_refl {pd : ParamDict} (hnd : keysNodup pd) : dictEqb pd pd = true :=
  dictEqb_of_perm (List.Perm.refl pd) hnd

lemma lookupK_append_left_miss {l1 : ParamDict} (rest : ParamDict) {k : PKey}
    (h : k ∉ l1.map fun kv => kv.1) :
    lookupK (l1 ++ rest) k = lookupK rest k := by
  induction l1 with
  | nil => rfl
  | cons a t ih =>
    rw [List.map_cons, List.mem_cons] at h
    push_neg at h
    unfold lookupK
    rw [List.cons_append, List.find?_cons_of_neg _ (by simpa using fun hh => h.1 hh.symm)]
    exact ih h.2

lemma insertPair_append (acc : ParamDict) (p : PKey × PyVal)
    (h : p.1 ∉ acc.map fun kv => kv.1) :
    insertPair acc p = acc ++ [p] := by
  induction acc with
  | nil => rfl
  | cons q t ih =>
    rw [List.map_cons, List.mem_cons] at h
    push_neg at h
    simp only [insertPair]
    rw [if_neg fun hh => h.1 hh.symm]
    rw [ih h.2, List.cons_append]

lemma foldl_insertPair (l : List (PKey × PyVal)) :
    ∀ acc : ParamDict, ((acc ++ l).map fun kv => kv.1).Nodup →
      l.foldl insertPair acc = acc ++ l := by
  induction l with
  | nil => intro acc h; simp
  | cons p t ih =>
    intro acc h
    have hkeys : ((acc.map fun kv => kv.1) ++ p.1 :: (t.map fun kv => kv.1)).Nodup := by
      simpa using h
    have hp : p.1 ∉ acc.map fun kv => kv.1 := by
      rcases List.nodup_append.mp hkeys with ⟨_, _, hdisj⟩
      exact fun hm => hdisj hm (List.mem_cons_self _ _)
    rw [List.foldl_cons, insertPair_append acc p hp]
    have happ : (acc ++ [p]) ++ t = acc ++ p :: t := by simp
    rw [ih (acc ++ [p]) (by rw [happ]; simpa using h), happ]

lemma dictOfList_eq_self {l : List (PKey × PyVal)} (h : keysNodup l) :
    dictOfList l = l := by
  unfold dictOfList
  exact foldl_insertPair l [] (by simpa using h)

/-- C1: for a symbolic variable whose applicable binding in the table is a
plain number (neither a string nor a symbolic expression), `value_of`
returns exactly that bound value by the exact-match shortcut — the stored
number passes through unchanged, with no substitution and no numeric
coercion; the same holds when the variable is given by its name string. -/
theorem value_of_shortcut_returns_bound_num (pd : ParamDict) (s : String) (n : PyNum)
    (h : chosenVal pd s = some (.num n)) :
    ParamResolver.value_of ⟨pd⟩ (.expr (.sym s)) (.num n) ∧
    ParamResolver.value_of ⟨pd⟩ (.str s) (.num n) := by
  have hs : shortcutNumVal pd (.sym s) = some n := by simp [shortcutNumVal, h]
  exact ⟨ValueOf.short _ _ hs, ValueOf.strI _ _ (ValueOf.short _ _ hs)⟩

theorem value_of_shortcut_returns_bound_num_witness :
    ParamResolver.value_of ⟨pdC1⟩ (.expr (.sym "x")) (.num (.int 5)) ∧
    ParamResolver.value_of ⟨pdC1⟩ (.str "x") (.num (.int 5)) :=
  value_of_shortcut_returns_bound_num pdC1 "x" (.int 5) (by decide)

/-- C2 counterexample: in the table binding the symbol `x` to `5` and the
string `"x"` to `7`, `value_of` on the symbol `x` returns `7` — the value
bound to the name string — and does not return `5`, the value bound to the
variable object, refuting the claim that the variable-object binding wins. -/
theorem value_of_symbol_key_wins_cex :
    ParamResolver.value_of ⟨pdC2⟩ (.expr (.sym "x")) (.num (.int 7)) ∧
    ¬ ParamResolver.value_of ⟨pdC2⟩ (.expr (.sym "x")) (.num (.int 5)) := by
  constructor
  · exact ValueOf.short _ _ (by decide)
  · intro h
    cases h with
    | short e n hs => exact absurd hs (by decide)
    | loop e r hs hl => exact absurd hs (by decide)

/-- C2 amended: the lookup tries the variable object first and its name
string second, and the later string match overwrites the earlier one; so for
a table binding both the variable object and its name string, `value_of`
uses the binding of the name string — in particular, when the name string is
bound to a concrete number, that number is returned regardless of what the
variable object is bound to. -/
theorem value_of_string_key_precedence (pd : ParamDict) (s : String) (v : PyVal) (m : PyNum)
    (hsym : lookupK pd (.sym s) = some v)
    (hstr : lookupK pd (.str s) = some (.num m)) :
    ParamResolver.value_of ⟨pd⟩ (.expr (.sym s)) (.num m) := by
  have hc : chosenVal pd s = some (.num m) := by
    unfold chosenVal
    rw [hstr]
  exact ValueOf.short _ _ (by simp [shortcutNumVal, hc])

theorem value_of_string_key_precedence_witness :
    ParamResolver.value_of ⟨pdC2⟩ (.expr (.sym "x")) (.num (.int 7)) :=
  value_of_string_key_precedence pdC2 "x" (.num (.int 5)) (.int 7) (by decide) (by decide)

/-- C3: if one substitution step over the whole binding table leaves an
expression unchanged while it still has free symbols, `value_of` stops and
returns that expression unchanged; and the substitution loop can yield an
unresolved expression only at such a no-change fixed point — no iteration
counter is involved. -/
theorem loop_fixed_point_termination (pd : ParamDict) (e : Expr)
    (hs : shortcutNumVal pd e = none)
    (hfree : hasFree e = true)
    (hfix : Expr.subs (substPairs pd) e = e) :
    ParamResolver.value_of ⟨pd⟩ (.expr e) (.expr e) ∧
    ∀ e₁ e₂, LoopEval (substPairs pd) e₁ (.expr e₂) →
      hasFree e₂ = true ∧ Expr.subs (substPairs pd) e₂ = e₂ := by
  refine ⟨ValueOf.loop _ _ hs (LoopEval.fixpt _ (by rwa [hfix]) hfix), ?_⟩
  intro e₁ e₂ h
  exact loopEval_expr_inv h e₂ rfl

theorem loop_fixed_point_termination_witness :
    ParamResolver.value_of ⟨pdC3⟩ (.expr (.sym "x")) (.expr (.sym "x")) ∧
    ∀ e₁ e₂, LoopEval (substPairs pdC3) e₁ (.expr e₂) →
      hasFree e₂ = true ∧ Expr.subs (substPairs pdC3) e₂ = e₂ :=
  loop_fixed_point_termination pdC3 (.sym "x") (by decide) (by decide) (by decide)

/-- C4: in the table binding `x` to the alias string `"y"` and `y` to `3`,
resolving the symbol `x` — or the string `"x"` — follows the chain and
yields the number 3 (as the float the loop produces). -/
theorem value_of_chained_binding :
    ParamResolver.value_of ⟨pdC4⟩ (.expr (.sym "x")) (.num (.float 3)) ∧
    ParamResolver.value_of ⟨pdC4⟩ (.str "x") (.num (.float 3)) := by
  have hy : LoopEval (substPairs pdC4) (.sym "y") (.num (.float 3)) := by
    have h1 : LoopEval (substPairs pdC4) (.sym "y")
        (numResult (Expr.subs (substPairs pdC4) (.sym "y"))) :=
      LoopEval.concrete _ (by decide)
    have he : numResult (Expr.subs (substPairs pdC4) (.sym "y")) = .num (.float 3) := by
      decide
    rwa [he] at h1
  have hx : LoopEval (substPairs pdC4) (.sym "x") (.num (.float 3)) := by
    refine LoopEval.step _ _ (by decide) (by decide) ?_
    have hsub : Expr.subs (substPairs pdC4) (.sym "x") = .sym "y" := by decide
    rwa [hsub]
  have hv : ValueOf pdC4 (.expr (.sym "x")) (.num (.float 3)) :=
    ValueOf.loop _ _ (by decide) hx
  exact ⟨hv, ValueOf.strI _ _ hv⟩

/-- C5: whenever a substitution step yields an expression with no free
symbols, the loop returns its numeric value — as a complex number when its
imaginary component is non-zero, and as a real (float) number otherwise;
conversely, every number the loop ever returns arises exactly this way from
some closed expression. -/
theorem loop_numeric_classification (ps : List (String × Expr)) :
    (∀ e, hasFree (Expr.subs ps e) = false →
      LoopEval ps e (if evalIm (Expr.subs ps e) = 0
        then .num (.float (evalRe (Expr.subs ps e)))
        else .num (.complex (evalRe (Expr.subs ps e)) (evalIm (Expr.subs ps e))))) ∧
    (∀ e n, LoopEval ps e (.num n) → ∃ v, hasFree v = false ∧
      n = if evalIm v = 0 then PyNum.float (evalRe v)
          else PyNum.complex (evalRe v) (evalIm v)) := by
  constructor
  · intro e h
    exact LoopEval.concrete e h
  · intro e n h
    exact loopEval_num_inv h n rfl

theorem loop_numeric_classification_witness :
    LoopEval psC5 (.sym "x") (if evalIm (Expr.subs psC5 (.sym "x")) = 0
      then .num (.float (evalRe (Expr.subs psC5 (.sym "x"))))
      else .num (.complex (evalRe (Expr.subs psC5 (.sym "x"))) (evalIm (Expr.subs psC5 (.sym "x"))))) ∧
    (∃ v, hasFree v = false ∧
      PyNum.complex 0 1 = if evalIm v = 0 then PyNum.float (evalRe v)
        else PyNum.complex (evalRe v) (evalIm v)) := by
  refine ⟨(loop_numeric_classification psC5).1 (.sym "x") (by decide),
          (loop_numeric_classification psC5).2 (.sym "x") (.complex 0 1) ?_⟩
  have h1 : LoopEval psC5 (.sym "x") (numResult (Expr.subs psC5 (.sym "x"))) :=
    LoopEval.concrete _ (by decide)
  have he : numResult (Expr.subs psC5 (.sym "x")) = .num (.complex 0 1) := by decide
  rwa [he] at h1

/-- C6: resolution is total and raises nothing on unresolvable input — every
plain number is returned unchanged, every symbol with no applicable binding
resolves to itself, and a resolver constructed with no argument is falsy,
iterates over nothing and resolves every symbol to itself. -/
theorem value_of_total_on_unresolvable (pd : ParamDict) (n : PyNum) (s t : String)
    (hs : s ∉ keyNames pd) :
    ParamResolver.value_of ⟨pd⟩ (.num n) (.num n) ∧
    ParamResolver.value_of ⟨pd⟩ (.expr (.sym s)) (.expr (.sym s)) ∧
    (mkResolver 0 .noneV).val.toBool = false ∧
    (mkResolver 0 .noneV).val.iterKeys = [] ∧
    ParamResolver.value_of (mkResolver 0 .noneV).val (.expr (.sym t)) (.expr (.sym t)) := by
  refine ⟨ValueOf.numPass n, valueOf_unbound_sym hs, rfl, rfl, ?_⟩
  exact valueOf_unbound_sym (List.not_mem_nil t)

theorem value_of_total_on_unresolvable_witness :
    ParamResolver.value_of ⟨pdC1⟩ (.num (.int 42)) (.num (.int 42)) ∧
    ParamResolver.value_of ⟨pdC1⟩ (.expr (.sym "q")) (.expr (.sym "q")) ∧
    (mkResolver 0 .noneV).val.toBool = false ∧
    (mkResolver 0 .noneV).val.iterKeys = [] ∧
    ParamResolver.value_of (mkResolver 0 .noneV).val (.expr (.sym "r")) (.expr (.sym "r")) :=
  value_of_total_on_unresolvable pdC1 (.int 42) "q" "r" (by decide)

/-- C7: resolvers over tables holding the same key/value pairs in any
insertion order are equal and have equal hashes (the hash being a function
of the frozen set of the table's items), while two tables that differ in a
single value — values unequal under Python `==`, which equates numerically
equal values of different runtime types — give unequal resolvers. -/
theorem resolver_eq_hash_contract (a b l1 l2 : ParamDict) (k : PKey) (v w : PyVal)
    (hperm : a.Perm b) (hnd : keysNodup a)
    (hvw : pyValEq v w = false) (hnd2 : keysNodup (l1 ++ (k, v) :: l2)) :
    ParamResolver.eqb ⟨a⟩ ⟨b⟩ = true ∧
    ParamResolver.hashv ⟨a⟩ = ParamResolver.hashv ⟨b⟩ ∧
    ParamResolver.eqb ⟨l1 ++ (k, v) :: l2⟩ ⟨l1 ++ (k, w) :: l2⟩ = false := by
  refine ⟨dictEqb_of_perm hperm hnd, ?_, ?_⟩
  · show a.toFinset = b.toFinset
    exact List.toFinset_eq_of_perm a b hperm
  · have hknot : k ∉ l1.map fun kv => kv.1 := by
      have h := hnd2
      unfold keysNodup at h
      rw [List.map_append, List.map_cons] at h
      rcases List.nodup_append.mp h with ⟨h1, h2, hdisj⟩
      exact fun hm => hdisj hm (List.mem_cons_self _ _)
    have hlook : lookupK (l1 ++ (k, w) :: l2) k = some w := by
      rw [lookupK_append_left_miss _ hknot]
      have hpos : (fun q : PKey × PyVal => decide (q.1 = k)) (k, w) = true := by simp
      have hfind : List.find? (fun q : PKey × PyVal => decide (q.1 = k)) ((k, w) :: l2) =
          some (k, w) := List.find?_cons_of_pos _ hpos
      unfold lookupK
      rw [hfind]
      rfl
    show dictEqb (l1 ++ (k, v) :: l2) (l1 ++ (k, w) :: l2) = false
    unfold dictEqb
    have hfail : ((l1 ++ (k, v) :: l2).all fun kv =>
        valuesMatch (l1 ++ (k, w) :: l2) kv.1 kv.2) = false := by
      by_contra hc
      rw [Bool.not_eq_false, List.all_eq_true] at hc
      have hm : (k, v) ∈ l1 ++ (k, v) :: l2 := by simp
      have hvm : valuesMatch (l1 ++ (k, w) :: l2) k v = true := hc _ hm
      have hpv : pyValEq v w = true := by
        unfold valuesMatch at hvm
        rwa [hlook] at hvm
      rw [hvw] at hpv
      exact Bool.false_ne_true hpv
    rw [hfail, Bool.false_and]

theorem resolver_eq_hash_contract_witness :
    ParamResolver.eqb ⟨[(.str "x", .num (.int 1)), (.str "y", .num (.int 2))]⟩
      ⟨[(.str "y", .num (.int 2)), (.str "x", .num (.int 1))]⟩ = true ∧
    ParamResolver.hashv ⟨[(.str "x", .num (.int 1)), (.str "y", .num (.int 2))]⟩ =
      ParamResolver.hashv ⟨[(.str "y", .num (.int 2)), (.str "x", .num (.int 1))]⟩ ∧
    ParamResolver.eqb ⟨[(.str "x", .num (.int 1))] ++ (.str "y", .num (.int 2)) :: []⟩
      ⟨[(.str "x", .num (.int 1))] ++ (.str "y", .num (.int 3)) :: []⟩ = false :=
  resolver_eq_hash_contract
    [(.str "x", .num (.int 1)), (.str "y", .num (.int 2))]
    [(.str "y", .num (.int 2)), (.str "x", .num (.int 1))]
    [(.str "x", .num (.int 1))] [] (.str "y") (.num (.int 2)) (.num (.int 3))
    (by decide) (by unfold keysNodup; decide) (by decide) (by unfold keysNodup; decide)

/-- C8: constructing from an existing resolver returns that same object
(same identity, its table untouched), while constructing from a raw table or
from no argument yields a freshly allocated resolver over that table or an
empty table, distinct from every pre-existing object. -/
theorem resolver_construction_identity (fresh : ℕ) (r : ResolverObj) (d : ParamDict)
    (hfresh : fresh ≠ r.oid) :
    mkResolver fresh (.resolver r) = r ∧
    mkResolver fresh (.dict d) = ⟨fresh, ⟨d⟩⟩ ∧
    mkResolver fresh .noneV = ⟨fresh, ⟨[]⟩⟩ ∧
    mkResolver fresh (.dict d) ≠ r ∧
    mkResolver fresh .noneV ≠ r := by
  refine ⟨rfl, rfl, rfl, ?_, ?_⟩
  · intro h
    exact hfresh (congrArg ResolverObj.oid h)
  · intro h
    exact hfresh (congrArg ResolverObj.oid h)

theorem resolver_construction_identity_witness :
    mkResolver 1 (.resolver ⟨0, ⟨pdC4⟩⟩) = ⟨0, ⟨pdC4⟩⟩ ∧
    mkResolver 1 (.dict pdC3) = ⟨1, ⟨pdC3⟩⟩ ∧
    mkResolver 1 .noneV = ⟨1, ⟨[]⟩⟩ ∧
    mkResolver 1 (.dict pdC3) ≠ ⟨0, ⟨pdC4⟩⟩ ∧
    mkResolver 1 .noneV ≠ ⟨0, ⟨pdC4⟩⟩ :=
  resolver_construction_identity 1 ⟨0, ⟨pdC4⟩⟩ pdC3 (by decide)

/-- C9: encoding a resolver to the structured record — the type tag plus the
table's items as an ordered list of pairs — and decoding that record again
produces a resolver equal to the original. -/
theorem json_round_trip (r : ParamResolver) (h : keysNodup r.param_dict) :
    (jsonDict r).1 = "ParamResolver" ∧
    ParamResolver.eqb (fromJsonDict (jsonDict r).2) r = true := by
  refine ⟨rfl, ?_⟩
  show dictEqb (dictOfList r.param_dict) r.param_dict = true
  rw [dictOfList_eq_self h]
  exact dictEqb_refl h

theorem json_round_trip_witness :
    (jsonDict rC9).1 = "ParamResolver" ∧
    ParamResolver.eqb (fromJsonDict (jsonDict rC9).2) rC9 = true :=
  json_round_trip rC9 (by unfold keysNodup; decide)

/-- C10: the exact-match shortcut returns the bound value with its exact
runtime type (an int binding stays that int), while every number produced by
the substitution loop is a coerced float or complex; hence the two paths can
return differently typed results for numerically equal bindings, as the
tables binding `x` to the int `5` and to the engine constant `5` show. -/
theorem shortcut_vs_loop_result_typing (pd : ParamDict) (s : String) (n : PyNum)
    (h : chosenVal pd s = some (.num n))
    (ps : List (String × Expr)) (e : Expr) (m : PyNum)
    (hl : LoopEval ps e (.num m)) :
    ParamResolver.value_of ⟨pd⟩ (.expr (.sym s)) (.num n) ∧
    ((∃ q, m = .float q) ∨ ∃ a b, m = .complex a b) ∧
    ParamResolver.value_of ⟨pdC10a⟩ (.expr (.sym "x")) (.num (.int 5)) ∧
    ParamResolver.value_of ⟨pdC10b⟩ (.expr (.sym "x")) (.num (.float 5)) ∧
    PyNum.int 5 ≠ PyNum.float 5 ∧
    numericVal (.int 5) = numericVal (.float 5) := by
  refine ⟨ValueOf.short _ _ (by simp [shortcutNumVal, h]), ?_,
          ValueOf.short _ _ (by decide), ?_, by decide, by decide⟩
  · rcases loopEval_num_inv hl m rfl with ⟨v, hv, hm⟩
    by_cases h0 : evalIm v = 0
    · rw [if_pos h0] at hm
      exact Or.inl ⟨_, hm⟩
    · rw [if_neg h0] at hm
      exact Or.inr ⟨_, _, hm⟩
  · refine ValueOf.loop _ _ (by decide) ?_
    have h1 : LoopEval (substPairs pdC10b) (.sym "x")
        (numResult (Expr.subs (substPairs pdC10b) (.sym "x"))) :=
      LoopEval.concrete _ (by decide)
    have he : numResult (Expr.subs (substPairs pdC10b) (.sym "x")) = .num (.float 5) := by
      decide
    rwa [he] at h1

theorem shortcut_vs_loop_result_typing_witness :
    ParamResolver.value_of ⟨pdC10a⟩ (.expr (.sym "x")) (.num (.int 5)) ∧
    ((∃ q, PyNum.float 5 = PyNum.float q) ∨ ∃ a b, PyNum.float 5 = PyNum.complex a b) ∧
    ParamResolver.value_of ⟨pdC10a⟩ (.expr (.sym "x")) (.num (.int 5)) ∧
    ParamResolver.value_of ⟨pdC10b⟩ (.expr (.sym "x")) (.num (.float 5)) ∧
    PyNum.int 5 ≠ PyNum.float 5 ∧
    numericVal (.int 5) = numericVal (.float 5) := by
  have h1 : LoopEval (substPairs pdC10b) (.sym "x")
      (numResult (Expr.subs (substPairs pdC10b) (.sym "x"))) :=
    LoopEval.concrete _ (by decide)
  have he : numResult (Expr.subs (substPairs pdC10b) (.sym "x")) = .num (.float 5) := by
    decide
  rw [he] at h1
  exact shortcut_vs_loop_result_typing pdC10a "x" (.int 5) (by decide)
    (substPairs pdC10b) (.sym "x") (.float 5) h1
